import Mathlib

/-!
Verification development for the access-log parsing utility
(`src/cli.py` and `src/logparse.py`).

The two Python files are near-duplicates.  Both extract log records from raw
text with `re.finditer` over one fixed pattern, optionally filter the records,
and append them to a CSV output file.  They differ in two places:

* the first capture group of the pattern is named `ip_addr` in `logparse.py`
  and `ipaddr` in `cli.py`;
* `cli.py` filters with `filter_data` (multi-token `key=value` filters plus a
  reverse index), while `logparse.py` filters inline in `read_files` with a
  single key/value pair via `d[filter_key] == filter_value`.

Strings are embedded as `List Char`; Python dictionaries (which preserve
insertion order) are embedded as ordered association lists.  The regex is
embedded as a backtracking matcher in continuation-passing style whose
alternative-ordering reproduces the greedy/lazy semantics of Python `re`.
-/

/-- One extracted log record: an ordered association list from field names to
field values, mirroring the insertion-ordered Python `dict` returned by
`m.groupdict()`. -/
abbrev LogRecord := List (List Char × List Char)

/-- Python `re` character class `\d` (ASCII fragment, which is all the log
grammar's surrounding literals admit). -/
def isDigitC (c : Char) : Bool := c.isDigit

/-- Python `re` character class `\w` (word character, ASCII fragment). -/
def isWordC (c : Char) : Bool := c.isAlphanum || c = '_'

/-- Python `re` character class `\S` (anything but whitespace). -/
def isNonSpaceC (c : Char) : Bool :=
  !(c = ' ' || c = '\t' || c = '\n' || c = '\r' || c = '\x0b' || c = '\x0c')

/-- Python `re` metacharacter `.` without DOTALL: any character but newline. -/
def isDotC (c : Char) : Bool := !(c = '\n')

/-- Lookup in an association list: models Python `dict` indexing (`d[k]`),
which returns the value of the unique binding of `k`. -/
def alookup {α β : Type} [DecidableEq α] (k : α) : List (α × β) → Option β
  | [] => none
  | p :: rest => if p.1 = k then some p.2 else alookup k rest

/-- Insertion with Python `dict` assignment semantics (`d[k] = v`): an
existing key keeps its position and gets the new value, a new key is
appended at the end. -/
def dictInsert {α β : Type} [DecidableEq α] (d : List (α × β)) (k : α) (v : β) :
    List (α × β) :=
  if d.any (fun p => decide (p.1 = k)) then
    d.map (fun p => if p.1 = k then (k, v) else p)
  else d ++ [(k, v)]

/-- Record equality with Python `dict` equality semantics: same keys bound to
the same values, irrespective of insertion order. -/
def dictEq (a b : LogRecord) : Bool :=
  a.all (fun p => decide (alookup p.1 b = some p.2)) &&
  b.all (fun p => decide (alookup p.1 a = some p.2))

/-- Try a function on each element in order and return the first success:
the backbone of the backtracking order of the Python regex engine. -/
def tryEach {α β : Type} (xs : List α) (f : α → Option β) : Option β :=
  match xs with
  | [] => none
  | x :: rest =>
    match f x with
    | some r => some r
    | none => tryEach rest f

/-- Number of leading characters of `cs` in the class `p`. -/
def countLeading (p : Char → Bool) (cs : List Char) : Nat :=
  (cs.takeWhile p).length

/-- Character-class repetition `p{lo,hi}` (greedy) or `p{lo,hi}?` (lazy,
when `lz` is true) run against continuation `k`.  The continuation receives
the consumed prefix and the remaining input; greedy tries longer prefixes
first, lazy tries shorter prefixes first, exactly as Python `re` backtracks. -/
def repClass {α : Type} (p : Char → Bool) (lo hi : Nat) (lz : Bool) (cs : List Char)
    (k : List Char → List Char → Option α) : Option α :=
  let run := min hi (countLeading p cs)
  let counts := List.range' lo (run + 1 - lo)
  tryEach (if lz then counts else counts.reverse) (fun j => k (cs.take j) (cs.drop j))

/-- A literal piece of the pattern, run against continuation `k`. -/
def lit {α : Type} (l cs : List Char) (k : List Char → Option α) : Option α :=
  if cs.take l.length = l then k (cs.drop l.length) else none

/-- The alternation `\d+|\-?` capturing the `bytes` group: Python tries the
left alternative (with the whole continuation) first. -/
def bytesAlt {α : Type} (cs : List Char) (k : List Char → List Char → Option α) :
    Option α :=
  match repClass isDigitC 1 cs.length false cs k with
  | some r => some r
  | none => repClass (fun c => decide (c = '-')) 0 1 false cs k

/-- The fixed line grammar of `parse_log_data`, transcribed element by element
from the regex shared by `src/logparse.py` and `src/cli.py`; `ipKey` is the
name of the first capture group (`ip_addr` in logparse.py, `ipaddr` in
cli.py).  On success it returns the `groupdict` (in group-definition order)
and the input remaining after the match. -/
def matchLogEntry (ipKey : List Char) (cs : List Char) : Option (LogRecord × List Char) :=
  repClass isDigitC 1 3 false cs fun o1 r1 =>
  lit ['.'] r1 fun r2 =>
  repClass isDigitC 1 3 false r2 fun o2 r3 =>
  lit ['.'] r3 fun r4 =>
  repClass isDigitC 1 3 false r4 fun o3 r5 =>
  lit ['.'] r5 fun r6 =>
  repClass isDigitC 1 3 true r6 fun o4 r7 =>
  lit (" - - [".data) r7 fun r8 =>
  repClass isDigitC 1 2 false r8 fun d1 r9 =>
  lit ['/'] r9 fun r10 =>
  repClass isWordC 3 5 false r10 fun mon r11 =>
  lit ['/'] r11 fun r12 =>
  repClass isDigitC 4 4 false r12 fun yr r13 =>
  lit [':'] r13 fun r14 =>
  repClass isDigitC 2 2 false r14 fun hh r15 =>
  lit [':'] r15 fun r16 =>
  repClass isDigitC 2 2 false r16 fun mi r17 =>
  lit [':'] r17 fun r18 =>
  repClass isDigitC 2 2 false r18 fun ss r19 =>
  lit (" +".data) r19 fun r20 =>
  repClass isDigitC 4 4 true r20 fun tz r21 =>
  lit ("] \"".data) r21 fun r22 =>
  repClass isWordC 3 6 true r22 fun me r23 =>
  lit [' '] r23 fun r24 =>
  repClass isNonSpaceC 1 r24.length true r24 fun pa r25 =>
  lit [' '] r25 fun r26 =>
  repClass isNonSpaceC 1 r26.length true r26 fun pr r27 =>
  lit ("\" ".data) r27 fun r28 =>
  repClass isDigitC 3 3 true r28 fun st r29 =>
  lit [' '] r29 fun r30 =>
  bytesAlt r30 fun byt r31 =>
  lit (" \"".data) r31 fun r32 =>
  repClass isNonSpaceC 1 r32.length true r32 fun ref r33 =>
  lit ("\" \"".data) r33 fun r34 =>
  repClass isDotC 0 r34.length true r34 fun ua r35 =>
  lit ['"'] r35 fun r36 =>
  some ([(ipKey, o1 ++ '.' :: o2 ++ '.' :: o3 ++ '.' :: o4),
         ("timestamp".data,
           d1 ++ '/' :: mon ++ '/' :: yr ++ ':' :: hh ++ ':' :: mi ++ ':' :: ss
              ++ ' ' :: '+' :: tz),
         ("method".data, me), ("path".data, pa), ("protocol".data, pr),
         ("status".data, st), ("bytes".data, byt), ("referrer".data, ref),
         ("user_agent".data, ua)], r36)

/-- Fuel-indexed embedding of the `re.finditer` scan: attempt a match at the
current position; on success emit the record and resume after the match
(advancing one character if the match were empty, as Python does); on failure
advance one character. -/
def findIterAux (ipKey : List Char) : Nat → List Char → List LogRecord
  | 0, _ => []
  | fuel + 1, cs =>
    match matchLogEntry ipKey cs with
    | some (r, rest) =>
      if rest.length < cs.length then r :: findIterAux ipKey fuel rest
      else r :: (match cs with
        | [] => []
        | _ :: t => findIterAux ipKey fuel t)
    | none =>
      match cs with
      | [] => []
      | _ :: t => findIterAux ipKey fuel t

/-- `parse_log_data`, generic in the name of the first capture group. -/
def parse_log_dataL (ipKey : List Char) (log : List Char) : List LogRecord :=
  findIterAux ipKey (log.length + 1) log

/-- `parse_log_data` of src/logparse.py: first capture group named `ip_addr`. -/
def logparse_parse_log_data (log : List Char) : List LogRecord :=
  parse_log_dataL ("ip_addr".data) log

/-- `parse_log_data` of src/cli.py: first capture group named `ipaddr`. -/
def cli_parse_log_data (log : List Char) : List LogRecord :=
  parse_log_dataL ("ipaddr".data) log

/-- The nine field names of a record produced by logparse.py's parser, in
group-definition order. -/
def logparseFields : List (List Char) :=
  ["ip_addr".data, "timestamp".data, "method".data, "path".data,
   "protocol".data, "status".data, "bytes".data, "referrer".data,
   "user_agent".data]

/-- The nine field names of a record produced by cli.py's parser, in
group-definition order. -/
def cliFields : List (List Char) :=
  ["ipaddr".data, "timestamp".data, "method".data, "path".data,
   "protocol".data, "status".data, "bytes".data, "referrer".data,
   "user_agent".data]

/-- The example log line given in the spec (section 8) and in the docstring of
`parse_log_data`, shortened only in its free-text tail fields. -/
def exLine : List Char :=
  ("193.105.7.171 - - [24/Jan/2018:00:01:12 +0300] \"GET /x HTTP/1.0\" 200 4012 \"http://ref\" \"UA\"").data

/-- Python `str.split('=')`: split at every `=`, keeping empty pieces
(`"a=b=c"` gives `["a","b","c"]`, `"a"` gives `["a"]`). -/
def splitEq : List Char → List (List Char)
  | [] => [[]]
  | c :: rest =>
    if c = '=' then [] :: splitEq rest
    else
      match splitEq rest with
      | [] => [[c]]
      | h :: t => (c :: h) :: t

/-- The allow-list of filter keys hard-coded in `filter_data` (src/cli.py,
line 100): note the spellings `ipaddr` and `protcol`. -/
def filter_key_list : List (List Char) :=
  ["ipaddr".data, "method".data, "protcol".data, "status".data]

/-- The filter-token normalization loop of `filter_data` (src/cli.py, lines
101-108): a token with no `=` is skipped; a token splitting into exactly a
key and a value is kept when the key is allow-listed and skipped otherwise;
a token with more than one `=` makes `key, value = pair.split('=')` raise
`ValueError`, embedded as `Except.error`. -/
def cleanFiltersAux (acc : List (List Char × List Char)) :
    List (List Char) → Except Unit (List (List Char × List Char))
  | [] => Except.ok acc
  | p :: rest =>
    if p.any (fun c => decide (c = '=')) then
      match splitEq p with
      | [k, v] =>
        if filter_key_list.any (fun k0 => decide (k0 = k)) then
          cleanFiltersAux (dictInsert acc k v) rest
        else cleanFiltersAux acc rest
      | _ => Except.error ()
    else cleanFiltersAux acc rest

/-- Append `e` to the bucket of `kv`, creating the bucket if absent: one step
of filling the `defaultdict(list)` reverse index of `filter_data`. -/
def idxAppend (kv : List Char × List Char) (e : LogRecord) :
    List ((List Char × List Char) × List LogRecord) →
    List ((List Char × List Char) × List LogRecord)
  | [] => [(kv, [e])]
  | (kv', b) :: rest =>
    if kv' = kv then (kv', b ++ [e]) :: rest else (kv', b) :: idxAppend kv e rest

/-- The reverse index of `filter_data` (src/cli.py, lines 111-114): every
record is appended to the bucket of each of its (field, value) pairs. -/
def buildIndex (data : List LogRecord) :
    List ((List Char × List Char) × List LogRecord) :=
  data.foldl (fun idx e => e.foldl (fun idx kv => idxAppend kv e idx) idx) []

/-- The per-constraint test of `filter_data` (src/cli.py, line 120):
`(key, value) in index and entry in index[(key, value)]`, where the list
membership `in` compares records with Python `dict` equality. -/
def indexPred (index : List ((List Char × List Char) × List LogRecord))
    (kv : List Char × List Char) (entry : LogRecord) : Bool :=
  match alookup kv index with
  | none => false
  | some bucket => bucket.any (fun e => dictEq e entry)

/-- The record-selection phase of `filter_data` (src/cli.py, lines 110-121):
build the reverse index, then keep the records satisfying every normalized
constraint. -/
def filterIndexed (data : List LogRecord) (fd : List (List Char × List Char)) :
    List LogRecord :=
  data.filter (fun entry => fd.all (fun kv => indexPred (buildIndex data) kv entry))

/-- The bucket a key reaches in the reverse index (empty when absent): the
value `index[(key, value)]` read off under the guard `(key, value) in index`. -/
def bucketOf (idx : List ((List Char × List Char) × List LogRecord))
    (kv : List Char × List Char) : List LogRecord :=
  (alookup kv idx).getD []

/-- `filter_data` of src/cli.py: normalize the raw `key=value` tokens (which
may raise, see `cleanFiltersAux`), then select records through the reverse
index. -/
def filter_data (data : List LogRecord) (filter_list : List (List Char)) :
    Except Unit (List LogRecord) :=
  match cleanFiltersAux [] filter_list with
  | Except.error e => Except.error e
  | Except.ok fd => Except.ok (filterIndexed data fd)

/-- Direct conjunctive filtering as worded by the spec (sections 4.2 and 9):
keep, in input order, the records whose field named `key` equals `value` for
every constraint.  Stated from the spec's words for comparison with the
index-based `filterIndexed`. -/
def filterDirect (data : List LogRecord) (fd : List (List Char × List Char)) :
    List LogRecord :=
  data.filter (fun entry => fd.all (fun kv => decide (alookup kv.1 entry = some kv.2)))

/-- A filter token that `filter_data` silently drops: either it contains no
`=`, or it splits into exactly one key and one value with the key outside the
allow-list. -/
def tokenIgnored (t : List Char) : Bool :=
  if t.any (fun c => decide (c = '=')) then
    match splitEq t with
    | [k, _] => !(filter_key_list.any (fun k0 => decide (k0 = k)))
    | _ => false
  else true

/-- Bounded check that no suffix of `cs` begins a match of the line grammar:
`re.finditer` finds no occurrence in `cs` exactly when this holds. -/
def noMatchAnywhere (ipKey cs : List Char) : Bool :=
  (List.range (cs.length + 1)).all (fun n => (matchLogEntry ipKey (cs.drop n)).isNone)

/-- The inline filtering of `read_files` in src/logparse.py (line 93):
`[d for d in log_data if d[filter_key] == filter_value]`.  Indexing a record
with a key it lacks raises `KeyError`, embedded as `Except.error`. -/
def logparse_read_files_filter (data : List LogRecord) (k v : List Char) :
    Except Unit (List LogRecord) :=
  match data with
  | [] => Except.ok []
  | d :: rest =>
    match alookup k d with
    | none => Except.error ()
    | some x =>
      match logparse_read_files_filter rest k v with
      | Except.error e => Except.error e
      | Except.ok out => Except.ok (if x = v then d :: out else out)

/-- One CSV row written by `csv.DictWriter.writerow`: the row's values in
`headers` order, the empty string for a missing key (the writer's `restval`);
a key of the row outside `headers` raises `ValueError` (`extrasaction` is
`'raise'` by default), embedded as `Except.error`. -/
def writeRow (headers : List (List Char)) (row : LogRecord) :
    Except Unit (List (List Char)) :=
  if row.all (fun p => headers.any (fun h => decide (h = p.1))) then
    Except.ok (headers.map (fun h => (alookup h row).getD []))
  else Except.error ()

/-- The row loop of `write_output_file` (both files): each record first gets
`row["source"] = source` assigned in place, then is rendered by the writer.
Returns the rows emitted so far, the list as mutated so far, and whether the
loop aborted on a raise. -/
def writeLoop (source : List Char) (headers : List (List Char)) :
    List LogRecord → List (List (List Char)) →
    List (List (List Char)) × List LogRecord × Bool
  | [], acc => (acc, [], false)
  | r :: rs, acc =>
    let r' := dictInsert r ("source".data) source
    match writeRow headers r' with
    | Except.ok cells =>
      let res := writeLoop source headers rs (acc ++ [cells])
      (res.1, r' :: res.2.1, res.2.2)
    | Except.error _ => (acc, r' :: rs, true)

/-- `write_output_file` (identical in src/cli.py and src/logparse.py).  The
destination file is `none` when absent, `some rows` otherwise; the function
returns the new file state, the record list after the loop's in-place
mutations, and whether a raise aborted the loop.  With no records it touches
nothing; on a missing destination it creates the file and writes the header
row `source` followed by the keys of the first record; on an existing
destination it appends without a header. -/
def write_output_file (source : List Char) (data : List LogRecord)
    (dest : Option (List (List (List Char)))) :
    Option (List (List (List Char))) × List LogRecord × Bool :=
  match data with
  | [] => (dest, [], false)
  | d0 :: _ =>
    let headers := ("source".data) :: d0.map Prod.fst
    let base : List (List (List Char)) :=
      match dest with
      | some rows => rows
      | none => [headers]
    let res := writeLoop source headers data base
    (some res.1, res.2.1, res.2.2)

/-- The record extracted from `exLine` by logparse.py's parser. -/
def exRecLog : LogRecord :=
  [("ip_addr".data, "193.105.7.171".data),
   ("timestamp".data, "24/Jan/2018:00:01:12 +0300".data),
   ("method".data, "GET".data), ("path".data, "/x".data),
   ("protocol".data, "HTTP/1.0".data), ("status".data, "200".data),
   ("bytes".data, "4012".data), ("referrer".data, "http://ref".data),
   ("user_agent".data, "UA".data)]

/-- The record extracted from `exLine` by cli.py's parser: identical to
`exRecLog` except that the first field is named `ipaddr`. -/
def exRecCli : LogRecord :=
  [("ipaddr".data, "193.105.7.171".data),
   ("timestamp".data, "24/Jan/2018:00:01:12 +0300".data),
   ("method".data, "GET".data), ("path".data, "/x".data),
   ("protocol".data, "HTTP/1.0".data), ("status".data, "200".data),
   ("bytes".data, "4012".data), ("referrer".data, "http://ref".data),
   ("user_agent".data, "UA".data)]

/-- A second cli.py-shaped record, differing from `exRecCli` in its ip and
method values (as another line of the same log would produce). -/
def exRecCliPost : LogRecord :=
  [("ipaddr".data, "9.9.9.9".data),
   ("timestamp".data, "24/Jan/2018:00:01:12 +0300".data),
   ("method".data, "POST".data), ("path".data, "/y".data),
   ("protocol".data, "HTTP/1.0".data), ("status".data, "404".data),
   ("bytes".data, "-".data), ("referrer".data, "http://ref".data),
   ("user_agent".data, "UA".data)]

/-- A well-formed log line whose bytes field is absent: two spaces separate
the status from the quoted referrer. -/
def exLineNB : List Char :=
  ("1.2.3.4 - - [24/Jan/2018:00:01:12 +0300] \"GET /x HTTP/1.0\" 200  \"http://ref\" \"UA\"").data

/-- The record extracted from `exLineNB` by logparse.py's parser: its bytes
field is the empty string. -/
def exRecNB : LogRecord :=
  [("ip_addr".data, "1.2.3.4".data),
   ("timestamp".data, "24/Jan/2018:00:01:12 +0300".data),
   ("method".data, "GET".data), ("path".data, "/x".data),
   ("protocol".data, "HTTP/1.0".data), ("status".data, "200".data),
   ("bytes".data, [])] ++
  [("referrer".data, "http://ref".data), ("user_agent".data, "UA".data)]

/-- Decidable equality for embedded fallible results, so that concrete runs
of the fallible functions can be checked by evaluation. -/
instance exceptDecEq {ε α : Type} [DecidableEq ε] [DecidableEq α] :
    DecidableEq (Except ε α) := fun a b =>
  match a, b with
  | Except.error e, Except.error e2 =>
    if h : e = e2 then isTrue (by rw [h]) else isFalse (fun hc => h (by injection hc))
  | Except.ok x, Except.ok y =>
    if h : x = y then isTrue (by rw [h]) else isFalse (fun hc => h (by injection hc))
  | Except.error _, Except.ok _ => isFalse (fun hc => Except.noConfusion hc)
  | Except.ok _, Except.error _ => isFalse (fun hc => Except.noConfusion hc)

/-- A successful `tryEach` is a success of `f` on some listed element. -/
theorem tryEach_some {α β : Type} {xs : List α} {f : α → Option β} {b : β}
    (h : tryEach xs f = some b) : ∃ x ∈ xs, f x = some b := by
  induction xs with
  | nil => exact absurd h (by simp [tryEach])
  | cons x rest ih =>
    rw [tryEach] at h
    cases hf : f x with
    | some r =>
      rw [hf] at h
      exact ⟨x, by simp, by rw [hf]; exact h⟩
    | none =>
      rw [hf] at h
      obtain ⟨y, hy, hfy⟩ := ih h
      exact ⟨y, by simp [hy], hfy⟩

/-- Taking no more characters than the leading run of `p` yields only
characters of the class `p`. -/
theorem all_take_countLeading {p : Char → Bool} :
    ∀ (cs : List Char) (j : Nat), j ≤ countLeading p cs → (cs.take j).all p = true := by
  intro cs
  induction cs with
  | nil => intro j hj; simp [countLeading] at hj; simp [hj]
  | cons c t ih =>
    intro j hj
    cases j with
    | zero => simp
    | succ j' =>
      cases hp : p c with
      | false => simp [countLeading, List.takeWhile_cons, hp] at hj
      | true =>
        simp only [countLeading, List.takeWhile_cons, hp, if_true, List.length_cons,
          Nat.add_le_add_iff_right] at hj
        simp only [List.take_succ_cons, List.all_cons, hp, Bool.true_and]
        exact ih j' hj

/-- The length of the leading run of `p` is at most the input length. -/
theorem countLeading_le_length {p : Char → Bool} (cs : List Char) :
    countLeading p cs ≤ cs.length := by
  induction cs with
  | nil => simp [countLeading]
  | cons c t ih =>
    cases hp : p c with
    | false => simp [countLeading, List.takeWhile_cons, hp]
    | true =>
      have hstep : countLeading p (c :: t) = countLeading p t + 1 := by
        simp [countLeading, List.takeWhile_cons, hp]
      rw [hstep, List.length_cons]
      omega

/-- A successful class repetition splits the input into a consumed prefix of
class characters, within the repetition bounds, and a remainder accepted by
the continuation. -/
theorem repClass_some {α : Type} {p : Char → Bool} {lo hi : Nat} {lz : Bool}
    {cs : List Char} {k : List Char → List Char → Option α} {b : α}
    (h : repClass p lo hi lz cs k = some b) :
    ∃ pre suf, cs = pre ++ suf ∧ pre.all p = true ∧ lo ≤ pre.length ∧
      pre.length ≤ hi ∧ k pre suf = some b := by
  unfold repClass at h
  obtain ⟨j, hj, hk⟩ := tryEach_some h
  have hj' : j ∈ List.range' lo (min hi (countLeading p cs) + 1 - lo) := by
    cases lz with
    | false => simp only [Bool.false_eq_true, if_false, List.mem_reverse] at hj; exact hj
    | true => simpa using hj
  rw [List.mem_range'_1] at hj'
  have hmin1 : min hi (countLeading p cs) ≤ hi := Nat.min_le_left _ _
  have hmin2 : min hi (countLeading p cs) ≤ countLeading p cs := Nat.min_le_right _ _
  have hjcl : j ≤ countLeading p cs := by omega
  have hlen : (cs.take j).length = j := by
    rw [List.length_take]
    have := countLeading_le_length (p := p) cs
    omega
  refine ⟨cs.take j, cs.drop j, (List.take_append_drop _ _).symm,
    all_take_countLeading cs j hjcl, ?_, ?_, hk⟩
  · omega
  · omega

/-- A successful literal strips exactly the literal from the input. -/
theorem lit_some {α : Type} {l cs : List Char} {k : List Char → Option α} {b : α}
    (h : lit l cs k = some b) : ∃ suf, cs = l ++ suf ∧ k suf = some b := by
  rw [lit] at h
  by_cases hc : cs.take l.length = l
  · rw [if_pos hc] at h
    refine ⟨cs.drop l.length, ?_, h⟩
    conv_lhs => rw [← List.take_append_drop l.length cs]
    rw [hc]
  · rw [if_neg hc] at h
    exact absurd h (by simp)

/-- A successful bytes alternation consumes a nonempty digit run, nothing, or
one dash. -/
theorem bytesAlt_some {α : Type} {cs : List Char} {k : List Char → List Char → Option α}
    {b : α} (h : bytesAlt cs k = some b) :
    ∃ pre suf, cs = pre ++ suf ∧
      ((pre.all isDigitC = true ∧ 1 ≤ pre.length) ∨ pre = [] ∨ pre = ['-']) ∧
      k pre suf = some b := by
  rw [bytesAlt] at h
  cases hd : repClass isDigitC 1 cs.length false cs k with
  | some r =>
    rw [hd] at h
    obtain ⟨pre, suf, hcs, hall, hlo, _, hk⟩ := repClass_some (hd.trans h)
    exact ⟨pre, suf, hcs, Or.inl ⟨hall, hlo⟩, hk⟩
  | none =>
    rw [hd] at h
    obtain ⟨pre, suf, hcs, hall, _, hhi, hk⟩ := repClass_some h
    refine ⟨pre, suf, hcs, ?_, hk⟩
    right
    cases pre with
    | nil => exact Or.inl rfl
    | cons c t =>
      cases t with
      | nil =>
        have hc := (List.all_eq_true.mp hall) c (by simp)
        simp only [decide_eq_true_eq] at hc
        exact Or.inr (by rw [hc])
      | cons d u => simp at hhi

/-- Soundness of the line grammar: a successful match yields the nine-field
groupdict in group-definition order, and its field values are verbatim the
consumed substrings: the input is exactly the concatenation of the field
values and the grammar's literal separators, followed by the unconsumed
remainder.  Moreover the status is a three-digit string and the bytes value
is a digit string (possibly empty) or a single dash. -/
theorem matchLogEntry_sound {ipKey cs : List Char} {r : LogRecord} {rest : List Char}
    (h : matchLogEntry ipKey cs = some (r, rest)) :
    ∃ ip ts me pa pr st byt ref ua,
      r = [(ipKey, ip), ("timestamp".data, ts), ("method".data, me),
           ("path".data, pa), ("protocol".data, pr), ("status".data, st),
           ("bytes".data, byt), ("referrer".data, ref), ("user_agent".data, ua)] ∧
      cs = ip ++ " - - [".data ++ ts ++ "] \"".data ++ me ++ ' ' :: pa
             ++ ' ' :: pr ++ "\" ".data ++ st ++ ' ' :: byt
             ++ " \"".data ++ ref ++ "\" \"".data ++ ua ++ '"' :: rest ∧
      st.all isDigitC = true ∧ st.length = 3 ∧
      (byt.all isDigitC = true ∨ byt = ['-']) := by
  unfold matchLogEntry at h
  obtain ⟨o1, r1, e1, a1, l1, u1, h⟩ := repClass_some h
  obtain ⟨r2, e2, h⟩ := lit_some h
  obtain ⟨o2, r3, e3, a3, l3, u3, h⟩ := repClass_some h
  obtain ⟨r4, e4, h⟩ := lit_some h
  obtain ⟨o3, r5, e5, a5, l5, u5, h⟩ := repClass_some h
  obtain ⟨r6, e6, h⟩ := lit_some h
  obtain ⟨o4, r7, e7, a7, l7, u7, h⟩ := repClass_some h
  obtain ⟨r8, e8, h⟩ := lit_some h
  obtain ⟨d1, r9, e9, a9, l9, u9, h⟩ := repClass_some h
  obtain ⟨r10, e10, h⟩ := lit_some h
  obtain ⟨mon, r11, e11, a11, l11, u11, h⟩ := repClass_some h
  obtain ⟨r12, e12, h⟩ := lit_some h
  obtain ⟨yr, r13, e13, a13, l13, u13, h⟩ := repClass_some h
  obtain ⟨r14, e14, h⟩ := lit_some h
  obtain ⟨hh, r15, e15, a15, l15, u15, h⟩ := repClass_some h
  obtain ⟨r16, e16, h⟩ := lit_some h
  obtain ⟨mi, r17, e17, a17, l17, u17, h⟩ := repClass_some h
  obtain ⟨r18, e18, h⟩ := lit_some h
  obtain ⟨ss, r19, e19, a19, l19, u19, h⟩ := repClass_some h
  obtain ⟨r20, e20, h⟩ := lit_some h
  obtain ⟨tz, r21, e21, a21, l21, u21, h⟩ := repClass_some h
  obtain ⟨r22, e22, h⟩ := lit_some h
  obtain ⟨me, r23, e23, a23, l23, u23, h⟩ := repClass_some h
  obtain ⟨r24, e24, h⟩ := lit_some h
  obtain ⟨pa, r25, e25, a25, l25, u25, h⟩ := repClass_some h
  obtain ⟨r26, e26, h⟩ := lit_some h
  obtain ⟨pr, r27, e27, a27, l27, u27, h⟩ := repClass_some h
  obtain ⟨r28, e28, h⟩ := lit_some h
  obtain ⟨st, r29, e29, ast, lst, ust, h⟩ := repClass_some h
  obtain ⟨r30, e30, h⟩ := lit_some h
  obtain ⟨byt, r31, e31, abyt, h⟩ := bytesAlt_some h
  obtain ⟨r32, e32, h⟩ := lit_some h
  obtain ⟨ref, r33, e33, a33, l33, u33, h⟩ := repClass_some h
  obtain ⟨r34, e34, h⟩ := lit_some h
  obtain ⟨ua, r35, e35, a35, l35, u35, h⟩ := repClass_some h
  obtain ⟨r36, e36, h⟩ := lit_some h
  rw [Option.some.injEq, Prod.mk.injEq] at h
  obtain ⟨hr, hrest⟩ := h
  subst hrest
  refine ⟨o1 ++ '.' :: o2 ++ '.' :: o3 ++ '.' :: o4,
    d1 ++ '/' :: mon ++ '/' :: yr ++ ':' :: hh ++ ':' :: mi ++ ':' :: ss ++ ' ' :: '+' :: tz,
    me, pa, pr, st, byt, ref, ua, hr.symm, ?_, ast, by omega, ?_⟩
  · subst e1 e2 e3 e4 e5 e6 e7 e8 e9 e10 e11 e12 e13 e14 e15 e16 e17 e18 e19 e20
    subst e21 e22 e23 e24 e25 e26 e27 e28 e29 e30 e31 e32 e33 e34 e35 e36
    simp [List.append_assoc]
  · rcases abyt with ⟨hd, _⟩ | hnil | hdash
    · exact Or.inl hd
    · exact Or.inl (by rw [hnil]; rfl)
    · exact Or.inr hdash

/-- A successful match consumes at least one character of the input. -/
theorem matchLogEntry_consumes {ipKey cs : List Char} {r : LogRecord} {rest : List Char}
    (h : matchLogEntry ipKey cs = some (r, rest)) : rest.length < cs.length := by
  obtain ⟨ip, ts, me, pa, pr, st, byt, ref, ua, _, hcs, _, _, _⟩ := matchLogEntry_sound h
  subst hcs
  simp only [List.length_append, List.length_cons]
  omega

/-- The empty input never matches the line grammar. -/
theorem matchLogEntry_nil (ipKey : List Char) : matchLogEntry ipKey [] = none := rfl

/-- The finditer scan does not depend on the fuel once the fuel exceeds the
input length. -/
theorem findIterAux_fuel (ipKey : List Char) :
    ∀ (n : Nat) (cs : List Char) (f1 f2 : Nat), cs.length = n →
      cs.length < f1 → cs.length < f2 →
      findIterAux ipKey f1 cs = findIterAux ipKey f2 cs := by
  intro n
  induction n using Nat.strong_induction_on with
  | _ n IH =>
    intro cs f1 f2 hn h1 h2
    obtain ⟨a, rfl⟩ : ∃ a, f1 = a + 1 := ⟨f1 - 1, by omega⟩
    obtain ⟨b, rfl⟩ : ∃ b, f2 = b + 1 := ⟨f2 - 1, by omega⟩
    cases hm : matchLogEntry ipKey cs with
    | some pr =>
      obtain ⟨r, rest⟩ := pr
      by_cases hlt : rest.length < cs.length
      · simp only [findIterAux, hm, if_pos hlt]
        rw [IH rest.length (by omega) rest a b rfl (by omega) (by omega)]
      · simp only [findIterAux, hm, if_neg hlt]
        cases cs with
        | nil => rfl
        | cons c t =>
          show r :: findIterAux ipKey a t = r :: findIterAux ipKey b t
          rw [IH t.length (by simp at hn; omega) t a b rfl (by simp at h1; omega)
            (by simp at h2; omega)]
    | none =>
      simp only [findIterAux, hm]
      cases cs with
      | nil => rfl
      | cons c t =>
        exact IH t.length (by simp at hn; omega) t a b rfl (by simp at h1; omega)
          (by simp at h2; omega)

/-- Each grammar match contributes exactly one record to the finditer scan,
which then continues on the remainder of the input after the match. -/
theorem parse_cons {ipKey cs : List Char} {r : LogRecord} {rest : List Char}
    (h : matchLogEntry ipKey cs = some (r, rest)) :
    parse_log_dataL ipKey cs = r :: parse_log_dataL ipKey rest := by
  have hlt := matchLogEntry_consumes h
  have hfe := findIterAux_fuel ipKey rest.length rest (rest.length + 1) cs.length rfl
    (by omega) hlt
  show findIterAux ipKey (cs.length + 1) cs = r :: findIterAux ipKey (rest.length + 1) rest
  rw [hfe]
  simp only [findIterAux, h, if_pos hlt]

/-- When no suffix of the input matches the grammar, the scan yields nothing. -/
theorem parse_eq_nil {ipKey : List Char} :
    ∀ (n : Nat) (cs : List Char), cs.length = n →
      (∀ m, matchLogEntry ipKey (cs.drop m) = none) →
      parse_log_dataL ipKey cs = [] := by
  intro n
  induction n using Nat.strong_induction_on with
  | _ n IH =>
    intro cs hn hall
    have h0 := hall 0
    rw [List.drop_zero] at h0
    unfold parse_log_dataL
    simp only [findIterAux, h0]
    cases cs with
    | nil => rfl
    | cons c t =>
      have ht := IH t.length (by simp at hn; omega) t rfl (fun m => by
        have hm := hall (m + 1)
        rwa [List.drop_succ_cons] at hm)
      unfold parse_log_dataL at ht
      show findIterAux ipKey (c :: t).length t = []
      rw [findIterAux_fuel ipKey t.length t (c :: t).length (t.length + 1) rfl
        (by simp only [List.length_cons]; omega) (by omega)]
      exact ht

/-- A successful lookup is a binding of the association list. -/
theorem alookup_mem {α β : Type} [DecidableEq α] {k : α} {v : β} :
    ∀ {d : List (α × β)}, alookup k d = some v → (k, v) ∈ d := by
  intro d
  induction d with
  | nil => intro h; exact absurd h (by simp [alookup])
  | cons p rest ih =>
    intro h
    rw [alookup] at h
    by_cases hp : p.1 = k
    · rw [if_pos hp] at h
      have hv : p.2 = v := Option.some.inj h
      have hpkv : p = (k, v) := by
        obtain ⟨a, b⟩ := p
        simp only at hp hv
        rw [hp, hv]
      rw [List.mem_cons]
      exact Or.inl hpkv.symm
    · rw [if_neg hp] at h
      exact List.mem_cons_of_mem p (ih h)

/-- With distinct keys, every binding is found by lookup. -/
theorem alookup_of_mem_nodup {α β : Type} [DecidableEq α] {k : α} {v : β} :
    ∀ {d : List (α × β)}, (d.map Prod.fst).Nodup → (k, v) ∈ d →
      alookup k d = some v := by
  intro d
  induction d with
  | nil => intro _ h; simp at h
  | cons p rest ih =>
    intro hnd hmem
    rw [List.map_cons, List.nodup_cons] at hnd
    obtain ⟨hp1, hnd'⟩ := hnd
    rw [List.mem_cons] at hmem
    rw [alookup]
    rcases hmem with heq | hmem
    · rw [← heq]
      simp
    · by_cases hp : p.1 = k
      · exact absurd (hp ▸ List.mem_map_of_mem Prod.fst hmem) hp1
      · rw [if_neg hp]
        exact ih hnd' hmem

/-- Lookup of an absent key fails. -/
theorem alookup_eq_none {α β : Type} [DecidableEq α] {k : α} :
    ∀ {d : List (α × β)}, k ∉ d.map Prod.fst → alookup k d = none := by
  intro d
  induction d with
  | nil => intro _; rfl
  | cons p rest ih =>
    intro h
    rw [List.map_cons, List.mem_cons] at h
    push_neg at h
    rw [alookup, if_neg (fun he => h.1 he.symm)]
    exact ih h.2

/-- Lookup of a present key succeeds with some value. -/
theorem alookup_isSome_of_mem {α β : Type} [DecidableEq α] {k : α} :
    ∀ {d : List (α × β)}, k ∈ d.map Prod.fst → ∃ v, alookup k d = some v := by
  intro d
  induction d with
  | nil => intro h; simp at h
  | cons p rest ih =>
    intro h
    rw [alookup]
    by_cases hp : p.1 = k
    · rw [if_pos hp]; exact ⟨p.2, rfl⟩
    · rw [if_neg hp]
      rw [List.map_cons, List.mem_cons] at h
      exact ih (h.resolve_left (fun he => hp he.symm))

/-- Python dict equality is reflexive on records with distinct keys. -/
theorem dictEq_refl {d : LogRecord} (hnd : (d.map Prod.fst).Nodup) :
    dictEq d d = true := by
  rw [dictEq]
  have hall : ∀ p ∈ d, decide (alookup p.1 d = some p.2) = true := by
    intro p hp
    rw [decide_eq_true_eq]
    exact alookup_of_mem_nodup hnd (by rw [Prod.mk.eta]; exact hp)
  rw [Bool.and_eq_true]
  constructor <;> (rw [List.all_eq_true]; exact hall)

/-- A binding of a record transfers along Python dict equality. -/
theorem alookup_of_dictEq {e b : LogRecord} {k v : List Char}
    (hde : dictEq e b = true) (hmem : (k, v) ∈ e) : alookup k b = some v := by
  rw [dictEq, Bool.and_eq_true] at hde
  obtain ⟨h1, _⟩ := hde
  rw [List.all_eq_true] at h1
  have := h1 (k, v) hmem
  rwa [decide_eq_true_eq] at this

/-- Appending to a bucket updates that key's bucket. -/
theorem alookup_idxAppend_same {kv : List Char × List Char} {e : LogRecord} :
    ∀ {idx}, alookup kv (idxAppend kv e idx) = some (bucketOf idx kv ++ [e]) := by
  intro idx
  induction idx with
  | nil => simp [idxAppend, alookup, bucketOf]
  | cons q rest ih =>
    obtain ⟨kv', b⟩ := q
    rw [idxAppend]
    by_cases hq : kv' = kv
    · rw [if_pos hq]
      simp [alookup, bucketOf, hq]
    · rw [if_neg hq]
      simp only [alookup, bucketOf, if_neg hq, ih, bucketOf]

/-- Appending to a bucket leaves the other keys' buckets unchanged. -/
theorem alookup_idxAppend_ne {kv kv2 : List Char × List Char} {e : LogRecord}
    (hne : kv2 ≠ kv) :
    ∀ {idx}, alookup kv2 (idxAppend kv e idx) = alookup kv2 idx := by
  intro idx
  have hne' : ¬ kv = kv2 := fun h => hne h.symm
  induction idx with
  | nil => simp [idxAppend, alookup, hne']
  | cons q rest ih =>
    obtain ⟨kv', b⟩ := q
    rw [idxAppend]
    by_cases hq : kv' = kv
    · rw [if_pos hq]
      subst hq
      simp [alookup, hne']
    · rw [if_neg hq]
      by_cases hq2 : kv' = kv2
      · simp [alookup, hq2]
      · simp [alookup, if_neg hq2, ih]

/-- Membership in a bucket after indexing one record under all its pairs. -/
theorem mem_bucket_pairsFold {e x : LogRecord} :
    ∀ (pairs : List (List Char × List Char))
      (idx : List ((List Char × List Char) × List LogRecord)) (kv),
      (x ∈ bucketOf (pairs.foldl (fun idx kv => idxAppend kv e idx) idx) kv ↔
        x ∈ bucketOf idx kv ∨ (kv ∈ pairs ∧ x = e)) := by
  intro pairs
  induction pairs with
  | nil => intro idx kv; simp
  | cons q rest ih =>
    intro idx kv
    rw [List.foldl_cons, ih (idxAppend q e idx) kv]
    have hb : bucketOf (idxAppend q e idx) kv =
        if kv = q then bucketOf idx kv ++ [e] else bucketOf idx kv := by
      by_cases hq : kv = q
      · rw [if_pos hq, hq, bucketOf, alookup_idxAppend_same]
        rfl
      · rw [if_neg hq, bucketOf, alookup_idxAppend_ne hq]
        rfl
    rw [hb]
    by_cases hq : kv = q
    · rw [if_pos hq]
      simp only [List.mem_append, List.mem_singleton, List.mem_cons, hq]
      tauto
    · rw [if_neg hq]
      simp only [List.mem_cons]
      constructor
      · rintro (hbk | ⟨hr, he⟩)
        · exact Or.inl hbk
        · exact Or.inr ⟨Or.inr hr, he⟩
      · rintro (hbk | ⟨hqr, he⟩)
        · exact Or.inl hbk
        · rcases hqr with hq' | hr
          · exact absurd hq' hq
          · exact Or.inr ⟨hr, he⟩

/-- Membership in a bucket of the fully built reverse index, relative to a
starting index. -/
theorem mem_bucket_foldIndex {x : LogRecord} {kv : List Char × List Char} :
    ∀ (data : List LogRecord) (idx),
      (x ∈ bucketOf
        (data.foldl (fun idx e => e.foldl (fun idx kv => idxAppend kv e idx) idx) idx) kv ↔
        x ∈ bucketOf idx kv ∨ (x ∈ data ∧ kv ∈ x)) := by
  intro data
  induction data with
  | nil => intro idx; simp
  | cons e rest ih =>
    intro idx
    rw [List.foldl_cons, ih, mem_bucket_pairsFold e idx kv]
    constructor
    · rintro ((hbk | ⟨hkv, rfl⟩) | ⟨hx, hkvx⟩)
      · exact Or.inl hbk
      · exact Or.inr ⟨List.mem_cons_self _ _, hkv⟩
      · exact Or.inr ⟨List.mem_cons_of_mem _ hx, hkvx⟩
    · rintro (hbk | ⟨hx, hkvx⟩)
      · exact Or.inl (Or.inl hbk)
      · rw [List.mem_cons] at hx
        rcases hx with rfl | hx
        · exact Or.inl (Or.inr ⟨hkvx, rfl⟩)
        · exact Or.inr ⟨hx, hkvx⟩

/-- A record sits in the bucket of a pair exactly when it is a data record
holding that pair. -/
theorem mem_bucket_buildIndex {x : LogRecord} {kv : List Char × List Char}
    {data : List LogRecord} :
    x ∈ bucketOf (buildIndex data) kv ↔ x ∈ data ∧ kv ∈ x := by
  rw [buildIndex, mem_bucket_foldIndex data []]
  simp [bucketOf, alookup]

/-- The per-constraint index test succeeds exactly on dict-equal copies of an
indexed record holding the pair. -/
theorem indexPred_eq_true_iff {data : List LogRecord} {kv} {entry} :
    indexPred (buildIndex data) kv entry = true ↔
      ∃ e, e ∈ data ∧ kv ∈ e ∧ dictEq e entry = true := by
  rw [indexPred]
  cases hl : alookup kv (buildIndex data) with
  | none =>
    constructor
    · intro hf; exact absurd hf (by simp)
    · rintro ⟨e, hed, hkv, _⟩
      have hbk : e ∈ bucketOf (buildIndex data) kv := mem_bucket_buildIndex.mpr ⟨hed, hkv⟩
      rw [bucketOf, hl] at hbk
      exact absurd hbk (by simp)
  | some bucket =>
    have hbk : bucketOf (buildIndex data) kv = bucket := by rw [bucketOf, hl]; rfl
    rw [List.any_eq_true]
    constructor
    · rintro ⟨e, he, hde⟩
      rw [← hbk] at he
      obtain ⟨hed, hkv⟩ := mem_bucket_buildIndex.mp he
      exact ⟨e, hed, hkv, hde⟩
    · rintro ⟨e, hed, hkv, hde⟩
      refine ⟨e, ?_, hde⟩
      rw [← hbk]
      exact mem_bucket_buildIndex.mpr ⟨hed, hkv⟩

/-- On a data record with distinct keys, the index test coincides with the
direct field test. -/
theorem indexPred_iff_alookup {data : List LogRecord} {entry : LogRecord} {kv}
    (hmem : entry ∈ data) (hnd : ∀ r ∈ data, (r.map Prod.fst).Nodup) :
    (indexPred (buildIndex data) kv entry = true ↔ alookup kv.1 entry = some kv.2) := by
  rw [indexPred_eq_true_iff]
  constructor
  · rintro ⟨e, _, hkv, hde⟩
    exact alookup_of_dictEq hde (by rw [Prod.mk.eta]; exact hkv)
  · intro hl
    refine ⟨entry, hmem, ?_, dictEq_refl (hnd entry hmem)⟩
    have hm := alookup_mem hl
    rwa [Prod.mk.eta] at hm

/-- Two boolean expressions agree when their truth conditions agree. -/
theorem bool_eq_of_true_iff {a b : Bool} (h : a = true ↔ b = true) : a = b := by
  cases a <;> cases b <;> simp_all

/-- The index-based record selection equals direct per-record conjunctive
predicate evaluation on records with distinct keys. -/
theorem filterIndexed_eq_filterDirect {data : List LogRecord}
    {fd : List (List Char × List Char)}
    (hnd : ∀ r ∈ data, (r.map Prod.fst).Nodup) :
    filterIndexed data fd = filterDirect data fd := by
  rw [filterIndexed, filterDirect]
  apply List.filter_congr
  intro entry hmem
  apply bool_eq_of_true_iff
  rw [List.all_eq_true, List.all_eq_true]
  constructor
  · intro h kv hkv
    rw [decide_eq_true_eq]
    exact (indexPred_iff_alookup hmem hnd).mp (h kv hkv)
  · intro h kv hkv
    refine (indexPred_iff_alookup hmem hnd).mpr ?_
    have := h kv hkv
    rwa [decide_eq_true_eq] at this

/-- With no constraints, the index-based selection keeps every record. -/
theorem filterIndexed_nil (data : List LogRecord) : filterIndexed data [] = data := by
  rw [filterIndexed]
  apply List.filter_eq_self.mpr
  intro a _
  rfl

/-- Tokens the normalization silently drops leave the accumulated filter
dictionary unchanged and raise nothing. -/
theorem cleanFiltersAux_ignored :
    ∀ (fl : List (List Char)), (∀ t ∈ fl, tokenIgnored t = true) →
      ∀ acc, cleanFiltersAux acc fl = Except.ok acc := by
  intro fl
  induction fl with
  | nil => intro _ acc; rfl
  | cons t rest ih =>
    intro h acc
    have ht := h t (List.mem_cons_self _ _)
    have hrest := fun t' ht' => h t' (List.mem_cons_of_mem t ht')
    rw [cleanFiltersAux]
    rw [tokenIgnored] at ht
    by_cases he : t.any (fun c => decide (c = '=')) = true
    · rw [if_pos he] at ht ⊢
      cases hs : splitEq t with
      | nil => rw [hs] at ht; simp at ht
      | cons k t2 =>
        cases t2 with
        | nil => rw [hs] at ht; simp at ht
        | cons v t3 =>
          cases t3 with
          | nil =>
            rw [hs] at ht
            have hak : (filter_key_list.any fun k0 => decide (k0 = k)) = false := by
              simpa using ht
            simp only [hak, Bool.false_eq_true, if_false]
            exact ih hrest acc
          | cons w t4 => rw [hs] at ht; simp at ht
    · rw [if_neg he] at ht ⊢
      exact ih hrest acc

/-- Splitting a string free of the separator yields the single piece. -/
theorem splitEq_no_sep : ∀ (v : List Char), (∀ c ∈ v, c ≠ '=') → splitEq v = [v] := by
  intro v
  induction v with
  | nil => intro _; rfl
  | cons c t ih =>
    intro h
    rw [splitEq]
    have hc : ¬ (c = '=') := h c (List.mem_cons_self _ _)
    rw [if_neg hc, ih (fun x hx => h x (List.mem_cons_of_mem _ hx))]

/-- Splitting at a unique separator yields exactly the two pieces. -/
theorem splitEq_pair : ∀ (k v : List Char), (∀ c ∈ k, c ≠ '=') → (∀ c ∈ v, c ≠ '=') →
    splitEq (k ++ '=' :: v) = [k, v] := by
  intro k
  induction k with
  | nil =>
    intro v _ hv
    rw [List.nil_append, splitEq, if_pos rfl, splitEq_no_sep v hv]
  | cons c t ih =>
    intro v hk hv
    rw [List.cons_append, splitEq]
    have hc : ¬ (c = '=') := hk c (List.mem_cons_self _ _)
    rw [if_neg hc, ih v (fun x hx => hk x (List.mem_cons_of_mem _ hx)) hv]

/-- A token assembled around a separator does contain the separator. -/
theorem any_sep_token {k v : List Char} :
    (k ++ '=' :: v).any (fun c => decide (c = '=')) = true := by
  rw [List.any_eq_true]
  exact ⟨'=', List.mem_append_right _ (List.mem_cons_self _ _), by simp⟩

/-- Lookup passes over a list that lacks the key. -/
theorem alookup_append_of_none {α β : Type} [DecidableEq α] {k : α} {a b : List (α × β)}
    (h : alookup k a = none) : alookup k (a ++ b) = alookup k b := by
  induction a with
  | nil => rw [List.nil_append]
  | cons p rest ih =>
    rw [alookup] at h
    by_cases hp : p.1 = k
    · rw [if_pos hp] at h; exact absurd h (by simp)
    · rw [if_neg hp] at h
      rw [List.cons_append, alookup, if_neg hp]
      exact ih h

/-- Lookup resolved in the first list ignores the second. -/
theorem alookup_append_of_some {α β : Type} [DecidableEq α] {k : α} {v : β}
    {a b : List (α × β)} (h : alookup k a = some v) :
    alookup k (a ++ b) = some v := by
  induction a with
  | nil => exact absurd h (by simp [alookup])
  | cons p rest ih =>
    rw [alookup] at h
    rw [List.cons_append, alookup]
    by_cases hp : p.1 = k
    · rw [if_pos hp] at h ⊢; exact h
    · rw [if_neg hp] at h ⊢; exact ih h

/-- Assigning a fresh key appends the binding at the end, as a Python dict
does. -/
theorem dictInsert_append {α β : Type} [DecidableEq α] {d : List (α × β)} {k : α} {v : β}
    (h : ∀ p ∈ d, p.1 ≠ k) : dictInsert d k v = d ++ [(k, v)] := by
  have hna : d.any (fun p => decide (p.1 = k)) = false := by
    rw [List.any_eq_false]
    intro p hp
    simp [h p hp]
  simp [dictInsert, hna]

/-- Rendering succeeds when every key of the row is a header. -/
theorem writeRow_ok {headers : List (List Char)} {row : LogRecord}
    (h : ∀ p ∈ row, p.1 ∈ headers) :
    writeRow headers row =
      Except.ok (headers.map (fun hd => (alookup hd row).getD [])) := by
  have hc : row.all (fun p => headers.any (fun hd => decide (hd = p.1))) = true := by
    rw [List.all_eq_true]
    intro p hp
    rw [List.any_eq_true]
    exact ⟨p.1, h p hp, by simp⟩
  rw [writeRow, if_pos hc]

/-- Reading a distinct-keyed record back in key order returns its values in
order. -/
theorem map_alookup_self : ∀ {d : LogRecord}, (d.map Prod.fst).Nodup →
    (d.map Prod.fst).map (fun k => (alookup k d).getD ([] : List Char)) =
      d.map Prod.snd := by
  intro d
  induction d with
  | nil => intro _; rfl
  | cons p rest ih =>
    intro hnd
    rw [List.map_cons, List.nodup_cons] at hnd
    obtain ⟨hp1, hnd'⟩ := hnd
    rw [List.map_cons, List.map_cons, List.map_cons]
    congr 1
    · simp [alookup]
    · have hstep : ∀ k ∈ rest.map Prod.fst,
          (alookup k (p :: rest)).getD ([] : List Char) = (alookup k rest).getD [] := by
        intro k hk
        rw [alookup, if_neg (fun he : p.1 = k => hp1 (by rw [he]; exact hk))]
      rw [List.map_congr_left hstep, ih hnd']

/-- Assigning into the empty dictionary yields the singleton binding. -/
theorem dictInsert_nil {α β : Type} [DecidableEq α] (k : α) (v : β) :
    dictInsert ([] : List (α × β)) k v = [(k, v)] := by
  simp [dictInsert]

/-- Normalizing a single allow-listed `key=value` token assigns the pair. -/
theorem cleanFiltersAux_keyed {k v : List Char}
    (hk : ∀ c ∈ k, c ≠ '=') (hv : ∀ c ∈ v, c ≠ '=')
    (hallow : (filter_key_list.any fun k0 => decide (k0 = k)) = true)
    (acc : List (List Char × List Char)) :
    cleanFiltersAux acc [k ++ '=' :: v] = Except.ok (dictInsert acc k v) := by
  rw [cleanFiltersAux, if_pos any_sep_token, splitEq_pair k v hk hv]
  simp [cleanFiltersAux, hallow]

/-- One pass of the sink's row loop over records sharing the key list `ks`
(which lacks `source`): every record is mutated in place with the source
binding appended, every emitted row is the source label followed by the
record's values in key order, and nothing raises. -/
theorem writeLoop_ok {src : List Char} {ks : List (List Char)}
    (hks : ("source".data) ∉ ks) (hnd : ks.Nodup) :
    ∀ (rows : List LogRecord) (acc : List (List (List Char))),
      (∀ r ∈ rows, r.map Prod.fst = ks) →
      writeLoop src (("source".data) :: ks) rows acc =
        (acc ++ rows.map (fun r => src :: r.map Prod.snd),
         rows.map (fun r => r ++ [(("source".data), src)]), false) := by
  intro rows
  induction rows with
  | nil => intro acc _; simp [writeLoop]
  | cons r rest ih =>
    intro acc hall
    have hr : r.map Prod.fst = ks := hall r (List.mem_cons_self _ _)
    have hnosrc : ∀ p ∈ r, p.1 ≠ ("source".data) := by
      intro p hp he
      apply hks
      rw [← he, ← hr]
      exact List.mem_map_of_mem Prod.fst hp
    have hmut : dictInsert r ("source".data) src = r ++ [(("source".data), src)] :=
      dictInsert_append hnosrc
    have hkeys : ∀ p ∈ r ++ [(("source".data), src)], p.1 ∈ ("source".data) :: ks := by
      intro p hp
      rw [List.mem_append] at hp
      rcases hp with hp | hp
      · exact List.mem_cons_of_mem _ (hr ▸ List.mem_map_of_mem Prod.fst hp)
      · rw [List.mem_singleton] at hp
        rw [hp]
        exact List.mem_cons_self _ _
    have hcells : ((("source".data)) :: ks).map
        (fun hd => (alookup hd (r ++ [(("source".data), src)])).getD ([] : List Char)) =
        src :: r.map Prod.snd := by
      rw [List.map_cons]
      congr 1
      · have h1 : alookup ("source".data) r = none := by
          apply alookup_eq_none
          rw [hr]; exact hks
        rw [alookup_append_of_none h1, alookup, if_pos rfl]
        rfl
      · have hsome : ∀ k ∈ ks,
            (alookup k (r ++ [(("source".data), src)])).getD ([] : List Char) =
              (alookup k r).getD [] := by
          intro k hk
          obtain ⟨w, hw⟩ := alookup_isSome_of_mem (d := r) (by rw [hr]; exact hk)
          rw [hw, alookup_append_of_some hw]
        rw [List.map_congr_left hsome, ← hr]
        exact map_alookup_self (by rw [hr]; exact hnd)
    rw [writeLoop]
    simp only [hmut, writeRow_ok hkeys, hcells]
    rw [ih (acc ++ [src :: r.map Prod.snd])
      (fun r' hr' => hall r' (List.mem_cons_of_mem _ hr'))]
    simp [List.append_assoc]

/-- Every record the finditer scan emits arises from a grammar match. -/
theorem mem_findIterAux {ipKey : List Char} :
    ∀ (fuel : Nat) (cs : List Char) (r : LogRecord), r ∈ findIterAux ipKey fuel cs →
      ∃ cs2 rest, matchLogEntry ipKey cs2 = some (r, rest) := by
  intro fuel
  induction fuel with
  | zero => intro cs r h; simp [findIterAux] at h
  | succ f ih =>
    intro cs r h
    cases hm : matchLogEntry ipKey cs with
    | some pr =>
      obtain ⟨r0, rest0⟩ := pr
      simp only [findIterAux, hm] at h
      by_cases hlt : rest0.length < cs.length
      · rw [if_pos hlt] at h
        rw [List.mem_cons] at h
        rcases h with rfl | h
        · exact ⟨cs, rest0, hm⟩
        · exact ih rest0 r h
      · rw [if_neg hlt] at h
        rw [List.mem_cons] at h
        rcases h with rfl | h
        · exact ⟨cs, rest0, hm⟩
        · cases cs with
          | nil => simp at h
          | cons c t => exact ih t r h
    | none =>
      simp only [findIterAux, hm] at h
      cases cs with
      | nil => simp at h
      | cons c t => exact ih t r h

/-- Every record `parse_log_data` emits arises from a grammar match. -/
theorem mem_parse_match {ipKey log : List Char} {r : LogRecord}
    (h : r ∈ parse_log_dataL ipKey log) :
    ∃ cs rest, matchLogEntry ipKey cs = some (r, rest) :=
  mem_findIterAux _ log r h

/-- Claim C2: for every record sequence whose records carry distinct field
names (the shape every extracted record has) and every normalized FilterSpec,
the index-based selection of `filter_data` — which builds a reverse index
keyed by (field, value) pairs and tests membership — returns exactly the
result of direct per-record conjunctive predicate evaluation: the
subsequence, in original input order, of the records whose field named `key`
equals `value` for every constraint. -/
theorem C2_index_refines_direct (data : List LogRecord)
    (fd : List (List Char × List Char))
    (hnd : ∀ r ∈ data, (r.map Prod.fst).Nodup) :
    filterIndexed data fd = filterDirect data fd :=
  filterIndexed_eq_filterDirect hnd

/-- Claim C2 witness: the equivalence evaluated on two concrete parsed
records and the constraint `method = GET`. -/
theorem C2_index_refines_direct_witness :
    (∀ r ∈ [exRecCli, exRecCliPost], (r.map Prod.fst).Nodup) ∧
    filterIndexed [exRecCli, exRecCliPost] [("method".data, "GET".data)] =
      filterDirect [exRecCli, exRecCliPost] [("method".data, "GET".data)] :=
  ⟨by decide, C2_index_refines_direct _ _ (by decide)⟩

/-- Claim C3 counterexample: a filter token containing two separators is not
silently dropped — `key, value = pair.split('=')` raises a `ValueError`
(embedded as `Except.error`), so filtering with only malformed tokens does
not return the records unchanged. -/
theorem C3_cex_two_sep_token_raises :
    filter_data [exRecCli] [("a=b=c".data)] = Except.error () := by decide

/-- Claim C3 (amended): filter tokens with no `=` at all, and tokens with
exactly one `=` whose key is not allow-listed, are silently dropped and never
raise; when every supplied token is of one of those two shapes, filtering
behaves as no filter and returns all records unchanged.  Tokens with two or
more `=` instead raise a `ValueError`. -/
theorem C3_ignored_tokens_no_filter (data : List LogRecord) (fl : List (List Char))
    (h : fl.all tokenIgnored = true) :
    filter_data data fl = Except.ok data := by
  rw [List.all_eq_true] at h
  simp only [filter_data, cleanFiltersAux_ignored fl h, filterIndexed_nil]

/-- Claim C3 witness: a separator-free token and an unrecognized-key token,
dropped without error, leaving the record list unfiltered. -/
theorem C3_ignored_tokens_no_filter_witness :
    ([("nosep".data), ("foo=bar".data)].all tokenIgnored = true) ∧
    filter_data [exRecCli, exRecCliPost] [("nosep".data), ("foo=bar".data)] =
      Except.ok [exRecCli, exRecCliPost] :=
  ⟨by decide, C3_ignored_tokens_no_filter _ _ (by decide)⟩

/-- Claim C8: for input text in which no position begins a match of the line
grammar, `parse_log_data` returns the empty record sequence; the embedded
scan is a total function, so no error is possible. -/
theorem C8_no_match_empty (ipKey log : List Char)
    (h : noMatchAnywhere ipKey log = true) :
    parse_log_dataL ipKey log = [] := by
  apply parse_eq_nil log.length log rfl
  intro m
  rw [noMatchAnywhere, List.all_eq_true] at h
  by_cases hm : m ≤ log.length
  · have hn := h m (by rw [List.mem_range]; omega)
    rwa [Option.isNone_iff_eq_none] at hn
  · rw [List.drop_eq_nil_of_le (by omega)]
    exact matchLogEntry_nil ipKey

/-- Claim C8 witness: a text with no log entry parses to no records. -/
theorem C8_no_match_empty_witness :
    noMatchAnywhere ("ip_addr".data) ("no log entries here 123".data) = true ∧
    parse_log_dataL ("ip_addr".data) ("no log entries here 123".data) = [] :=
  ⟨by decide, C8_no_match_empty _ _ (by decide)⟩

/-- Claim C9: filtering is idempotent — when `filter_data` maps a record
sequence (with distinct per-record field names) to an output, running
`filter_data` with the same tokens on that output returns it unchanged. -/
theorem C9_filter_idempotent (data : List LogRecord) (fl : List (List Char))
    (out : List LogRecord)
    (hnd : ∀ r ∈ data, (r.map Prod.fst).Nodup)
    (h : filter_data data fl = Except.ok out) :
    filter_data out fl = Except.ok out := by
  rw [filter_data] at h
  rw [filter_data]
  cases hcf : cleanFiltersAux [] fl with
  | error e =>
    rw [hcf] at h
    exact absurd h (by simp)
  | ok fd =>
    simp only [hcf] at h ⊢
    rw [Except.ok.injEq] at h ⊢
    have hsub : ∀ r ∈ out, r ∈ data := by
      intro r hr
      rw [← h, filterIndexed] at hr
      exact (List.mem_filter.mp hr).1
    have hndo : ∀ r ∈ out, (r.map Prod.fst).Nodup := fun r hr => hnd r (hsub r hr)
    rw [filterIndexed_eq_filterDirect hndo]
    apply List.filter_eq_self.mpr
    intro r hr
    have hdd : out = filterDirect data fd := by
      rw [← h, filterIndexed_eq_filterDirect hnd]
    rw [hdd, filterDirect] at hr
    exact (List.mem_filter.mp hr).2

/-- Claim C9 witness: refiltering the one-record output of a `method=GET`
filter returns it unchanged. -/
theorem C9_filter_idempotent_witness :
    (∀ r ∈ [exRecCli, exRecCliPost], (r.map Prod.fst).Nodup) ∧
    filter_data [exRecCli, exRecCliPost] [("method=GET".data)] = Except.ok [exRecCli] ∧
    filter_data [exRecCli] [("method=GET".data)] = Except.ok [exRecCli] :=
  ⟨by decide, by decide,
   C9_filter_idempotent [exRecCli, exRecCliPost] [("method=GET".data)] [exRecCli]
     (by decide) (by decide)⟩

/-- Claim C1 counterexample: the cli.py variant of `parse_log_data`, run on
the spec's example line, produces a record whose field names are those of
`cliFields` — the first field is named `ipaddr`, so the record does not
contain a field named `ip_addr` as the claim requires of both cited
parsers. -/
theorem C1_cex_cli_field_names :
    (cli_parse_log_data exLine).map (fun r => r.map Prod.fst) = [cliFields] ∧
    cliFields ≠ logparseFields := by
  constructor
  · decide
  · decide

/-- Claim C1 (amended): for every input position at which the line grammar
matches, the scan contributes exactly one record for that match and proceeds
after it; the record holds exactly nine fields — named after the variant's
first capture group (`ip_addr` in logparse.py, `ipaddr` in cli.py), then
timestamp, method, path, protocol, status, bytes, referrer, user_agent, in
that order; and every field value is the matched substring verbatim: the
matched region of the input is exactly the concatenation of the nine field
values with the grammar's literal separators. -/
theorem C1_extract_verbatim {ipKey cs : List Char} {r : LogRecord} {rest : List Char}
    (h : matchLogEntry ipKey cs = some (r, rest)) :
    parse_log_dataL ipKey cs = r :: parse_log_dataL ipKey rest ∧
    r.map Prod.fst = ipKey :: ("timestamp".data) :: ("method".data) :: ("path".data) ::
      ("protocol".data) :: ("status".data) :: ("bytes".data) :: ("referrer".data) ::
      ("user_agent".data) :: [] ∧
    ∃ ip ts me pa pr st byt ref ua,
      r = [(ipKey, ip), ("timestamp".data, ts), ("method".data, me),
           ("path".data, pa), ("protocol".data, pr), ("status".data, st),
           ("bytes".data, byt), ("referrer".data, ref), ("user_agent".data, ua)] ∧
      cs = ip ++ " - - [".data ++ ts ++ "] \"".data ++ me ++ ' ' :: pa
             ++ ' ' :: pr ++ "\" ".data ++ st ++ ' ' :: byt
             ++ " \"".data ++ ref ++ "\" \"".data ++ ua ++ '"' :: rest := by
  obtain ⟨ip, ts, me, pa, pr, st, byt, ref, ua, hrec, hcs, _, _, _⟩ :=
    matchLogEntry_sound h
  refine ⟨parse_cons h, ?_, ip, ts, me, pa, pr, st, byt, ref, ua, hrec, hcs⟩
  rw [hrec]
  rfl

/-- Claim C1 witness: the amended claim evaluated on the spec's example line
with the logparse.py group name. -/
theorem C1_extract_verbatim_witness :
    matchLogEntry ("ip_addr".data) exLine = some (exRecLog, []) ∧
    (parse_log_dataL ("ip_addr".data) exLine =
        exRecLog :: parse_log_dataL ("ip_addr".data) [] ∧
     exRecLog.map Prod.fst = ("ip_addr".data) :: ("timestamp".data) :: ("method".data) ::
       ("path".data) :: ("protocol".data) :: ("status".data) :: ("bytes".data) ::
       ("referrer".data) :: ("user_agent".data) :: [] ∧
     ∃ ip ts me pa pr st byt ref ua,
       exRecLog = [(("ip_addr".data), ip), ("timestamp".data, ts), ("method".data, me),
            ("path".data, pa), ("protocol".data, pr), ("status".data, st),
            ("bytes".data, byt), ("referrer".data, ref), ("user_agent".data, ua)] ∧
       exLine = ip ++ " - - [".data ++ ts ++ "] \"".data ++ me ++ ' ' :: pa
              ++ ' ' :: pr ++ "\" ".data ++ st ++ ' ' :: byt
              ++ " \"".data ++ ref ++ "\" \"".data ++ ua ++ '"' :: ([] : List Char)) :=
  ⟨by decide, C1_extract_verbatim (by decide)⟩

/-- Claim C7 counterexample: a well-formed line whose bytes field is absent
(two spaces after the status, so the alternation `\d+|\-?` matches the empty
string) parses to a record whose bytes value is the empty string — neither a
nonempty digit string nor the single dash. -/
theorem C7_cex_empty_bytes :
    logparse_parse_log_data exLineNB = [exRecNB] ∧
    alookup ("bytes".data) exRecNB = some [] := by
  constructor
  · decide
  · decide

/-- Claim C7 (amended): every record either parser extracts carries a status
of exactly three digits, and a bytes value that is either a possibly-empty
string of digits or the single character dash; the empty string arises
exactly on lines with no bytes field. -/
theorem C7_status_bytes_shape {ipKey log : List Char} {r : LogRecord}
    (hip : ipKey = ("ip_addr".data) ∨ ipKey = ("ipaddr".data))
    (h : r ∈ parse_log_dataL ipKey log) :
    ∃ st byt, alookup ("status".data) r = some st ∧ st.length = 3 ∧
      st.all isDigitC = true ∧ alookup ("bytes".data) r = some byt ∧
      (byt.all isDigitC = true ∨ byt = ['-']) := by
  obtain ⟨cs, rest, hm⟩ := mem_parse_match h
  obtain ⟨ip, ts, me, pa, pr, st, byt, ref, ua, hrec, _, hall, hlen, hbyt⟩ :=
    matchLogEntry_sound hm
  refine ⟨st, byt, ?_, hlen, hall, ?_, hbyt⟩
  · rcases hip with rfl | rfl <;> (rw [hrec]; simp [alookup])
  · rcases hip with rfl | rfl <;> (rw [hrec]; simp [alookup])

/-- Claim C7 witness: the amended claim evaluated on the record parsed from
the line with the absent bytes field. -/
theorem C7_status_bytes_shape_witness :
    (("ip_addr".data) = ("ip_addr".data) ∨ ("ip_addr".data) = ("ipaddr".data)) ∧
    exRecNB ∈ parse_log_dataL ("ip_addr".data) exLineNB ∧
    (∃ st byt, alookup ("status".data) exRecNB = some st ∧ st.length = 3 ∧
      st.all isDigitC = true ∧ alookup ("bytes".data) exRecNB = some byt ∧
      (byt.all isDigitC = true ∨ byt = ['-'])) :=
  ⟨by decide, by decide,
   @C7_status_bytes_shape ("ip_addr".data) exLineNB exRecNB (by decide) (by decide)⟩

/-- Claim C4 counterexample: the two spellings of each pair are not aliases.
On the same parsed record, an `ip_addr` token with a non-matching value is
dropped, so all records are kept (an alias of the ip field would keep none),
while the allow-listed `ipaddr` spelling does constrain; and a `protocol`
token carrying the record's own protocol value is dropped (all records kept),
while the allow-listed `protcol` spelling matches no record field and drops
the record an alias would have kept. -/
theorem C4_cex_not_aliases :
    filter_data [exRecCli] [("ip_addr=9.9.9.9".data)] = Except.ok [exRecCli] ∧
    filter_data [exRecCli] [("ipaddr=9.9.9.9".data)] = Except.ok [] ∧
    filter_data [exRecCli] [("protocol=HTTP/1.0".data)] = Except.ok [exRecCli] ∧
    filter_data [exRecCli] [("protcol=HTTP/1.0".data)] = Except.ok [] := by
  refine ⟨by decide, by decide, by decide, by decide⟩

/-- Claim C4 (amended): the filter honors exactly the four allow-listed keys
`ipaddr`, `method`, `protcol`, `status`, each constraining the record field
of the very same name; the alternative spellings `ip_addr` and `protocol`
are unrecognized and silently dropped, leaving the records unconstrained;
and on records shaped as cli.py's parser produces them (fields `ipaddr` and
`protocol`, no field `protcol`), a `protcol` constraint excludes every
record. -/
theorem C4_allowlist_exact (data : List LogRecord) (v : List Char)
    (hsh : ∀ r ∈ data, r.map Prod.fst = cliFields)
    (hv : ∀ c ∈ v, c ≠ '=') :
    filter_data data [("ipaddr".data) ++ '=' :: v] =
      Except.ok (filterDirect data [(("ipaddr".data), v)]) ∧
    filter_data data [("method".data) ++ '=' :: v] =
      Except.ok (filterDirect data [(("method".data), v)]) ∧
    filter_data data [("status".data) ++ '=' :: v] =
      Except.ok (filterDirect data [(("status".data), v)]) ∧
    filter_data data [("protcol".data) ++ '=' :: v] = Except.ok [] ∧
    filter_data data [("ip_addr".data) ++ '=' :: v] = Except.ok data ∧
    filter_data data [("protocol".data) ++ '=' :: v] = Except.ok data := by
  have hnd : ∀ r ∈ data, (r.map Prod.fst).Nodup := by
    intro r hr
    rw [hsh r hr]
    decide
  have hkeyed : ∀ (k : List Char), (∀ c ∈ k, c ≠ '=') →
      (filter_key_list.any fun k0 => decide (k0 = k)) = true →
      filter_data data [k ++ '=' :: v] = Except.ok (filterDirect data [(k, v)]) := by
    intro k hk hallow
    simp only [filter_data, cleanFiltersAux_keyed hk hv hallow, dictInsert_nil,
      filterIndexed_eq_filterDirect hnd]
  have hdrop : ∀ (k : List Char), (∀ c ∈ k, c ≠ '=') →
      (filter_key_list.any fun k0 => decide (k0 = k)) = false →
      filter_data data [k ++ '=' :: v] = Except.ok data := by
    intro k hk hfalse
    have htok : ∀ t ∈ [k ++ '=' :: v], tokenIgnored t = true := by
      intro t ht
      rw [List.mem_singleton] at ht
      rw [ht, tokenIgnored, if_pos any_sep_token, splitEq_pair k v hk hv]
      simp [hfalse]
    simp only [filter_data, cleanFiltersAux_ignored _ htok, filterIndexed_nil]
  have hprot : filterDirect data [(("protcol".data), v)] = [] := by
    rw [filterDirect]
    rw [List.filter_eq_nil_iff]
    intro r hr
    have hnone : alookup ("protcol".data) r = none := by
      apply alookup_eq_none
      rw [hsh r hr]
      decide
    simp [hnone]
  refine ⟨hkeyed _ (by decide) (by decide), hkeyed _ (by decide) (by decide),
    hkeyed _ (by decide) (by decide), ?_, hdrop _ (by decide) (by decide),
    hdrop _ (by decide) (by decide)⟩
  rw [hkeyed ("protcol".data) (by decide) (by decide), hprot]

/-- Claim C4 witness: the amended claim evaluated on a concrete parsed
record and the value of its ip field. -/
theorem C4_allowlist_exact_witness :
    (∀ r ∈ [exRecCli], r.map Prod.fst = cliFields) ∧
    (∀ c ∈ ("193.105.7.171".data), c ≠ '=') ∧
    (filter_data [exRecCli] [("ipaddr".data) ++ '=' :: ("193.105.7.171".data)] =
       Except.ok (filterDirect [exRecCli] [(("ipaddr".data), ("193.105.7.171".data))]) ∧
     filter_data [exRecCli] [("method".data) ++ '=' :: ("193.105.7.171".data)] =
       Except.ok (filterDirect [exRecCli] [(("method".data), ("193.105.7.171".data))]) ∧
     filter_data [exRecCli] [("status".data) ++ '=' :: ("193.105.7.171".data)] =
       Except.ok (filterDirect [exRecCli] [(("status".data), ("193.105.7.171".data))]) ∧
     filter_data [exRecCli] [("protcol".data) ++ '=' :: ("193.105.7.171".data)] =
       Except.ok [] ∧
     filter_data [exRecCli] [("ip_addr".data) ++ '=' :: ("193.105.7.171".data)] =
       Except.ok [exRecCli] ∧
     filter_data [exRecCli] [("protocol".data) ++ '=' :: ("193.105.7.171".data)] =
       Except.ok [exRecCli]) :=
  ⟨by decide, by decide,
   C4_allowlist_exact [exRecCli] ("193.105.7.171".data) (by decide) (by decide)⟩

/-- Claim C6 (the code of src/logparse.py violates it): in cli.py's
`filter_data`, a normalized constraint whose key no record carries excludes
the records without raising — here the allow-listed key `protcol`, absent
from every parsed record, yields an empty result; but logparse.py's inline
filter expression `d[filter_key]` raises `KeyError` (embedded as
`Except.error`) when the key is absent from a record, even for the keys its
own help text advertises, such as `ipaddr`, since its records name that
field `ip_addr`. -/
theorem C6_missing_key_behavior :
    filter_data (cli_parse_log_data exLine) [("protcol=HTTP/1.0".data)] =
      Except.ok [] ∧
    logparse_read_files_filter (logparse_parse_log_data exLine) ("ipaddr".data)
      ("193.105.7.171".data) = Except.error () := by
  refine ⟨by decide, by decide⟩

/-- Claim C5: writing the records of file A and then those of file B (with
at least one record overall, all records carrying the nine extractor field
names in order) to an initially-absent destination produces exactly one
header row — `source` followed by the nine field names in fixed order —
followed by A's rows and then B's rows in original record order, each row
being its source label followed by the record's nine field values in the
same fixed order. -/
theorem C5_sink_round_trip (srcA srcB : List Char) (dataA dataB : List LogRecord)
    (hA : ∀ r ∈ dataA, r.map Prod.fst = logparseFields)
    (hB : ∀ r ∈ dataB, r.map Prod.fst = logparseFields)
    (hne : ¬ (dataA = [] ∧ dataB = [])) :
    (write_output_file srcB dataB (write_output_file srcA dataA none).1).1 =
      some ((("source".data) :: logparseFields) ::
        (dataA.map (fun r => srcA :: r.map Prod.snd) ++
         dataB.map (fun r => srcB :: r.map Prod.snd))) := by
  have hknd : logparseFields.Nodup := by decide
  have hksrc : ("source".data) ∉ logparseFields := by decide
  cases dataA with
  | nil =>
    cases dataB with
    | nil => exact absurd ⟨rfl, rfl⟩ hne
    | cons e0 erest =>
      have he0 : e0.map Prod.fst = logparseFields := hB e0 (List.mem_cons_self _ _)
      have hwB := @writeLoop_ok srcB logparseFields hksrc hknd (e0 :: erest)
        [("source".data) :: logparseFields] hB
      simp only [write_output_file, he0, hwB]
      simp
  | cons d0 drest =>
    have hd0 : d0.map Prod.fst = logparseFields := hA d0 (List.mem_cons_self _ _)
    have hwA := @writeLoop_ok srcA logparseFields hksrc hknd (d0 :: drest)
      [("source".data) :: logparseFields] hA
    cases dataB with
    | nil =>
      simp only [write_output_file, hd0, hwA]
      simp
    | cons e0 erest =>
      have he0 : e0.map Prod.fst = logparseFields := hB e0 (List.mem_cons_self _ _)
      have hwB := @writeLoop_ok srcB logparseFields hksrc hknd (e0 :: erest)
        (([("source".data) :: logparseFields]) ++
          (d0 :: drest).map (fun r => srcA :: r.map Prod.snd)) hB
      simp only [write_output_file, hd0, he0, hwA, hwB]
      simp [List.append_assoc]

/-- Claim C5 witness: the round trip evaluated on one record per file. -/
theorem C5_sink_round_trip_witness :
    (∀ r ∈ [exRecLog], r.map Prod.fst = logparseFields) ∧
    (∀ r ∈ [exRecNB], r.map Prod.fst = logparseFields) ∧
    (¬ ([exRecLog] = ([] : List LogRecord) ∧ [exRecNB] = ([] : List LogRecord))) ∧
    (write_output_file ("b.log".data) [exRecNB]
        (write_output_file ("a.log".data) [exRecLog] none).1).1 =
      some ((("source".data) :: logparseFields) ::
        ([exRecLog].map (fun r => ("a.log".data) :: r.map Prod.snd) ++
         [exRecNB].map (fun r => ("b.log".data) :: r.map Prod.snd))) :=
  ⟨by decide, by decide, by decide,
   C5_sink_round_trip ("a.log".data) ("b.log".data) [exRecLog] [exRecNB]
     (by decide) (by decide) (by decide)⟩

/-- Claim C10: the sink mutates its input.  For every nonempty record list
whose records share one nine-name key list without a `source` key (the shape
extraction produces), `write_output_file` hands back the caller's records
with the binding `source ↦ source label` inserted in place at the end of
each record, no error raised: afterwards every record holds ten keys rather
than the nine produced by extraction, with all other fields unchanged. -/
theorem C10_sink_mutates (src : List Char) (data : List LogRecord)
    (dest : Option (List (List (List Char)))) (ks : List (List Char))
    (hne : data ≠ [])
    (hsh : ∀ r ∈ data, r.map Prod.fst = ks)
    (hsrc : ("source".data) ∉ ks)
    (hknd : ks.Nodup)
    (hlen : ks.length = 9) :
    (write_output_file src data dest).2.1 =
      data.map (fun r => r ++ [(("source".data), src)]) ∧
    (write_output_file src data dest).2.2 = false ∧
    ∀ r2 ∈ (write_output_file src data dest).2.1, (r2.map Prod.fst).length = 10 := by
  cases data with
  | nil => exact absurd rfl hne
  | cons d0 drest =>
    have hd0 : d0.map Prod.fst = ks := hsh d0 (List.mem_cons_self _ _)
    have hw := @writeLoop_ok src ks hsrc hknd (d0 :: drest)
      (match dest with | some rows => rows | none => [("source".data) :: ks]) hsh
    refine ⟨?_, ?_, ?_⟩
    · simp only [write_output_file, hd0, hw]
    · simp only [write_output_file, hd0, hw]
    · simp only [write_output_file, hd0, hw]
      intro r2 hr2
      rw [List.mem_map] at hr2
      obtain ⟨r, hr, rfl⟩ := hr2
      rw [List.map_append, List.length_append, hsh r hr, hlen]
      rfl

/-- Claim C10 witness: the mutation observed on one parsed record. -/
theorem C10_sink_mutates_witness :
    ([exRecCli] ≠ ([] : List LogRecord)) ∧
    (∀ r ∈ [exRecCli], r.map Prod.fst = cliFields) ∧
    (("source".data) ∉ cliFields) ∧ cliFields.Nodup ∧ cliFields.length = 9 ∧
    ((write_output_file ("a.log".data) [exRecCli] none).2.1 =
       [exRecCli].map (fun r => r ++ [(("source".data), ("a.log".data))]) ∧
     (write_output_file ("a.log".data) [exRecCli] none).2.2 = false ∧
     ∀ r2 ∈ (write_output_file ("a.log".data) [exRecCli] none).2.1,
       (r2.map Prod.fst).length = 10) :=
  ⟨by decide, by decide, by decide, by decide, by decide,
   C10_sink_mutates ("a.log".data) [exRecCli] none cliFields
     (by decide) (by decide) (by decide) (by decide) (by decide)⟩
